import Mathlib

set_option maxRecDepth 16384
set_option maxHeartbeats 2000000

/-!
# Verification of the netbench receiver core (src/netbench.cpp)

Shallow embedding of the components named by the claims:

* `ProtocolParser::consume`            → `Netbench.consume`
* `BufferProviderV1` (classic pool)    → `Netbench.returnIndexList`, `Netbench.compact`,
                                         `Netbench.poolConstruct`, `Netbench.poolProvide`, ...
* `BufferProviderV2` (shared ring)     → `Netbench.v2Construct`, `Netbench.v2ReturnIndex`
* `mkIoUring`                          → `Netbench.mkIoUringParams`
* `RxStats::doneLoop` / `doLog`        → `Netbench.doneLoop`, `Netbench.doLog`
* `EPollRunner::doWrite`               → `Netbench.doWrite`
* `IOUringRunner::processRead`         → `Netbench.processRead`

Modelling conventions:

* Machine integers are `Nat`/`Int`; a `% 65536` or `% 4294967296` is written exactly
  where the corresponding C++ expression stores into a `uint16_t` / `uint32_t` and can
  wrap.  Comparisons mirror C++ integer promotion (promoted to `int`, hence exact).
* Process memory is a function `Nat → Nat` (byte value at an address); a `char const*`
  argument becomes a `(mem, pos)` pair.  Concrete test memories place the supplied
  chunk at positions `0..` and model all bytes beyond it as `0`.
* Wall-clock time points are `Nat` nanoseconds of the steady clock.
-/

namespace Netbench

/-! ## Frame parser (`ProtocolParser`, netbench.cpp lines 263-302) -/

/-- `struct ConsumeResults { size_t to_write; uint32_t count; }`. -/
structure ConsumeResults where
  to_write : Nat
  count : Nat
deriving Repr, DecidableEq

/-- Parser state: `uint32_t size_buff_have; std::array<uint32_t,2> is_reading;
`char size_buff[8]; uint32_t so_far;`.  The two words of `is_reading` are
`is_reading0` (frame length) and `is_reading1` (reply size).  `size_buff` is the
8-byte scratch buffer, kept as a byte list. -/
structure ParserState where
  size_buff_have : Nat
  is_reading0 : Nat
  is_reading1 : Nat
  size_buff : List Nat
  so_far : Nat
deriving Repr, DecidableEq

/-- Little-endian `uint32_t` assembled by `memcpy` from 4 bytes at `p` (the source
assumes a little-endian host, see netbench.cpp lines 271-281). -/
def le32 (m : Nat → Nat) (p : Nat) : Nat :=
  m p + 256 * m (p + 1) + 65536 * m (p + 2) + 16777216 * m (p + 3)

/-- `le32` reading from the `size_buff` byte array. -/
def le32L (l : List Nat) (p : Nat) : Nat :=
  l.getD p 0 + 256 * l.getD (p + 1) 0 + 65536 * l.getD (p + 2) 0 +
    16777216 * l.getD (p + 3) 0

/-- `memcpy(dst + dOff, src + sOff, len)` into the `size_buff` byte array. -/
def blitL (dst : List Nat) (dOff : Nat) (src : Nat → Nat) (sOff len : Nat) : List Nat :=
  dst.mapIdx (fun j v => if dOff ≤ j ∧ j < dOff + len then src (sOff + (j - dOff)) else v)

/-- The header-assembly block of one `consume` loop iteration (netbench.cpp lines
270-283): if the length word is still 0, either read the 8-byte header in place
(fast path), or stage bytes into `size_buff` and decode once 8 bytes are present. -/
def headerStep (mem : Nat → Nat) (pos n : Nat) (st : ParserState) : ParserState :=
  if st.is_reading0 ≠ 0 then st
  else if 8 ≤ n ∧ st.size_buff_have = 0 then
    { st with size_buff_have := 8,
              is_reading0 := le32 mem pos, is_reading1 := le32 mem (pos + 4) }
  else
    let add := min n (8 - st.size_buff_have)
    let sb := blitL st.size_buff st.size_buff_have mem pos add
    let have2 := st.size_buff_have + add
    if 8 ≤ have2 then
      { st with size_buff := sb, size_buff_have := have2,
                is_reading0 := le32L sb 0, is_reading1 := le32L sb 4 }
    else
      { st with size_buff := sb, size_buff_have := have2 }

/-- The `while (n > 0)` loop of `ProtocolParser::consume` (netbench.cpp lines
268-294), fuel-indexed.  Each iteration adds `n` to `so_far` (a `uint32_t`, hence
the mod), runs the header block, and on frame completion advances `data` by the
whole `n` (`data += n` in the source) and continues with the residual byte count
`so_far - (length + 8)`.  Every iteration that recurses strictly decreases
`so_far + n` by at least 9 (a completed frame spans at least 9 counted bytes, and
`x % 2^32 ≤ x`), so the fuel chosen in `consume` below is never exhausted. -/
def consumeGo (mem : Nat → Nat) :
    Nat → Nat → Nat → ParserState → ConsumeResults → ParserState × ConsumeResults
  | 0, _, _, st, acc => (st, acc)
  | fuel + 1, pos, n, st, acc =>
    if n = 0 then (st, acc)
    else
      let st1 := headerStep mem pos n { st with so_far := (st.so_far + n) % 4294967296 }
      if st1.is_reading0 ≠ 0 ∧ st1.is_reading0 + 8 ≤ st1.so_far then
        consumeGo mem fuel (pos + n) (st1.so_far - (st1.is_reading0 + 8))
          { st1 with is_reading0 := 0, is_reading1 := 0, size_buff_have := 0, so_far := 0 }
          { to_write := acc.to_write + st1.is_reading1, count := acc.count + 1 }
      else (st1, acc)

/-- `ProtocolParser::consume(data, n)`; `(mem, pos)` is the `data` pointer. -/
def consume (mem : Nat → Nat) (pos n : Nat) (st : ParserState) :
    ParserState × ConsumeResults :=
  consumeGo mem (st.so_far + n + 1) pos n st { to_write := 0, count := 0 }

/-- A freshly constructed parser (per connection) or one right after a frame
completion reset: counters zero, `is_reading = {{0}}`; `size_buff` holds
indeterminate bytes `junk` (it has no initializer in the source). -/
def freshParser (junk : List Nat) : ParserState :=
  { size_buff_have := 0, is_reading0 := 0, is_reading1 := 0, size_buff := junk, so_far := 0 }

/-- Feed a parser a sequence of `consume` calls, one `(pos, n)` chunk each, summing
the returned `ConsumeResults` as both engines do. -/
def runChunks (mem : Nat → Nat) :
    ParserState → ConsumeResults → List (Nat × Nat) → ParserState × ConsumeResults
  | st, acc, [] => (st, acc)
  | st, acc, c :: rest =>
    runChunks mem (consume mem c.1 c.2 st).1
      { to_write := acc.to_write + (consume mem c.1 c.2 st).2.to_write,
        count := acc.count + (consume mem c.1 c.2 st).2.count } rest

/-- A concrete recv buffer: the listed bytes at positions `0..`, and `0` for every
byte beyond the supplied chunk (whatever happens to sit in process memory there). -/
def memOf (l : List Nat) : Nat → Nat := fun i => l.getD i 0

/-- Two back-to-back well-formed frames in one chunk: `(length=1, reply_size=5,
payload "a")` then `(length=1, reply_size=7, payload "b")`; 18 bytes total. -/
def twoFrames : List Nat :=
  [1, 0, 0, 0, 5, 0, 0, 0, 97, 1, 0, 0, 0, 7, 0, 0, 0, 98]

/-- One `consume` call per byte: chunks `(0,1), (1,1), ..., (n-1,1)`. -/
def byteChunks (n : Nat) : List (Nat × Nat) := (List.range n).map (fun i => (i, 1))

/-! ## Classic buffer provider (`BufferProviderV1`, netbench.cpp lines 511-678) -/

/-- `struct Range { uint16_t start; uint16_t count; }` (fields shown in logical
order; on a little-endian host the packed `sortable` key is
`start * 2^16 + count`). -/
structure Range where
  start : Nat
  count : Nat
deriving Repr, DecidableEq

/-- The `sortable` union member used as the sort key in `compact()`. -/
def Range.sortable (r : Range) : Nat := r.start * 65536 + r.count

/-- `Range::merge(uint16_t idx)` (netbench.cpp lines 643-654).  The comparisons
are performed after integer promotion, so `idx == start - 1` means exactly
`idx + 1 = start`; the `count++` store wraps in the `uint16_t` field. -/
def Range.mergeIdx (r : Range) (i : Nat) : Option Range :=
  if i + 1 = r.start then some { start := i, count := (r.count + 1) % 65536 }
  else if i = r.start + r.count then some { start := r.start, count := (r.count + 1) % 65536 }
  else none

/-- `Range::merge(Range const&)` (netbench.cpp lines 656-667); `a.mergeRange b`
is `a.merge(b)`, the merged range replacing `a`. -/
def Range.mergeRange (a b : Range) : Option Range :=
  if a.start + a.count = b.start then
    some { start := a.start, count := (a.count + b.count) % 65536 }
  else if b.start + b.count = a.start then
    some { start := b.start, count := (a.count + b.count) % 65536 }
  else none

/-- `BufferProviderV1::returnIndex` acting on the `toProvide_` vector (netbench.cpp
lines 583-599), list in vector order (head = `toProvide_[0]`, last = `back()`):
try to merge `i` into the back range; failing that, into the second-to-back range
(then try to collapse the last two ranges); failing both, push a singleton. -/
def returnIndexList : List Range → Nat → List Range
  | [], i => [{ start := i, count := 1 }]
  | [b], i =>
    match b.mergeIdx i with
    | some b2 => [b2]
    | none => [b, { start := i, count := 1 }]
  | [a, b], i =>
    match b.mergeIdx i with
    | some b2 => [a, b2]
    | none =>
      match a.mergeIdx i with
      | some a2 =>
        match a2.mergeRange b with
        | some m => [m]
        | none => [a2, b]
      | none => [a, b, { start := i, count := 1 }]
  | x :: y :: z :: t, i => x :: returnIndexList (y :: z :: t) i

/-- The coalescing sweep inside `compact()` (netbench.cpp lines 566-573):
`toProvide2_` starts as `[sorted[0]]` and each following range is merged into the
current back or pushed. -/
def sweep : Range → List Range → List Range
  | acc, [] => [acc]
  | acc, p :: t =>
    match acc.mergeRange p with
    | some m => sweep m t
    | none => acc :: sweep p t

/-- `BufferProviderV1::compact` (netbench.cpp lines 551-581): nothing to do for at
most one range; for exactly two, try to merge them; otherwise sort by the packed
`sortable` key and sweep.  `std::sort`'s output is modelled with `mergeSort`
under `sortable ≤ sortable`; on states reachable from `uint16_t` fields the key
determines the range, so the sorted permutation is unique and the model exact. -/
def compact (l : List Range) : List Range :=
  match l with
  | [] => []
  | [a] => [a]
  | [a, b] =>
    match a.mergeRange b with
    | some m => [m]
    | none => [a, b]
  | x :: y :: z :: t =>
    match (x :: y :: z :: t).mergeSort (fun a b => decide (a.sortable ≤ b.sortable)) with
    | [] => []
    | s :: tt => sweep s tt

/-- The `BufferProviderV1` fields the claims are about: the free list
`toProvide_`, the counter `toProvideCount_` (a `ssize_t`) and `lowWatermark_`. -/
structure PoolV1State where
  toProvide : List Range
  toProvideCount : Int
  lowWatermark : Int
deriving Repr, DecidableEq

/-- The `BufferProviderV1` constructor (netbench.cpp lines 515-527):
`toProvide_ = {Range(0, count)}` (the `Range` fields are `uint16_t`, so the count
is narrowed) and `toProvideCount_ = count`. -/
def poolConstruct (provided_buffer_count : Nat) (low_watermark : Int) : PoolV1State :=
  { toProvide := [{ start := 0, count := provided_buffer_count % 65536 }],
    toProvideCount := provided_buffer_count,
    lowWatermark := low_watermark }

/-- `BufferProviderV1::returnIndex`: update the free list and `++toProvideCount_`. -/
def poolReturnIndex (st : PoolV1State) (i : Nat) : PoolV1State :=
  { st with toProvide := returnIndexList st.toProvide i,
            toProvideCount := st.toProvideCount + 1 }

/-- `BufferProviderV1::compact` on the provider state. -/
def poolCompact (st : PoolV1State) : PoolV1State :=
  { st with toProvide := compact st.toProvide }

/-- `BufferProviderV1::needsToProvide(): toProvideCount_ > lowWatermark_`. -/
def poolNeedsToProvide (st : PoolV1State) : Bool :=
  st.lowWatermark < st.toProvideCount

/-- `BufferProviderV1::provide` (netbench.cpp lines 601-609): encode the back
range as a provide-buffers submission, subtract its count, pop it.  The source
only calls it under `canProvide()`; on an empty list the C++ `back()` is
undefined and the model leaves the state unchanged. -/
def poolProvide (st : PoolV1State) : PoolV1State :=
  match st.toProvide.getLast? with
  | none => st
  | some r =>
    { st with toProvide := st.toProvide.dropLast,
              toProvideCount := st.toProvideCount - r.count }

/-- The set of buffer indices described by a `Range`. -/
def Range.toFinset (r : Range) : Finset Nat := Finset.Ico r.start (r.start + r.count)

/-- The set of buffer indices held by a free list. -/
def listSet (l : List Range) : Finset Nat :=
  l.foldr (fun r acc => r.toFinset ∪ acc) ∅

/-- Sum of the `count` fields of a free list. -/
def sumCounts (l : List Range) : Nat := l.foldr (fun r acc => r.count + acc) 0

/-- Well-formed free list: every range nonempty, ranges pairwise disjoint ("ranges
never overlap", spec section 3). -/
def RangesOk (l : List Range) : Prop :=
  (∀ r ∈ l, 1 ≤ r.count) ∧ l.Pairwise (fun a b => Disjoint a.toFinset b.toFinset)

instance : DecidablePred RangesOk := fun l => by
  unfold RangesOk; infer_instance

/-- The counter/free-list invariant of claim C6: `toProvideCount_` equals the sum
of the `Range` counts. -/
def poolCountInv (st : PoolV1State) : Prop :=
  st.toProvideCount = (sumCounts st.toProvide : Int)

instance : DecidablePred poolCountInv := fun st => by
  unfold poolCountInv; infer_instance

/-! ## Shared-ring buffer provider (`BufferProviderV2`, netbench.cpp lines 680-846) -/

/-- The `BufferProviderV2` fields relevant to tail publication: the `uint16_t`
cached tail, the staging fill level `cachedIndices`, the staged indices, and the
trace of values successively written to `ring_->tail` with
`io_uring_smp_store_release` (oldest first). -/
structure PoolV2State where
  tailCached : Nat
  cachedIndices : Nat
  staged : List Nat
  published : List Nat
deriving Repr, DecidableEq

/-- The `BufferProviderV2` constructor tail setup (netbench.cpp lines 743-748):
`tailCached_ = count_` (narrowed to `uint16_t`) and one release-store of it.
The constructor `die`s when `count_ >= 65535`, so reachable `count < 65535`. -/
def v2Construct (count : Nat) : PoolV2State :=
  { tailCached := count % 65536, cachedIndices := 0, staged := [],
    published := [count % 65536] }

/-- `BufferProviderV2::returnIndex` (netbench.cpp lines 798-810): stage the index;
once 32 are staged, write the 32 descriptors, advance the `uint16_t` cached tail
by 32 (wrapping), and publish it with one release-store. -/
def v2ReturnIndex (st : PoolV2State) (i : Nat) : PoolV2State :=
  if st.cachedIndices + 1 < 32 then
    { st with staged := st.staged ++ [i % 65536], cachedIndices := st.cachedIndices + 1 }
  else
    { tailCached := (st.tailCached + 32) % 65536, cachedIndices := 0, staged := [],
      published := st.published ++ [(st.tailCached + 32) % 65536] }

/-! ## Ring setup (`mkIoUring`, netbench.cpp lines 204-242) -/

/-- The `io_uring_params` fields `mkIoUring` fills before the first
`io_uring_queue_init_params` attempt: the requested flags and `cq_entries`. -/
structure IoUringParams where
  submit_all : Bool
  coop_taskrun : Bool
  cqsize : Bool
  defer_taskrun : Bool
  single_issuer : Bool
  r_disabled : Bool
  cq_entries : Int
deriving Repr, DecidableEq

/-- netbench.cpp lines 212-213: `cqe_count = rx_cfg.cqe_count <= 0 ?
128 * rx_cfg.sqe_count : rx_cfg.cqe_count`. -/
def mkIoUringCqeCount (sqe_count cqe_count_cfg : Int) : Int :=
  if cqe_count_cfg ≤ 0 then 128 * sqe_count else cqe_count_cfg

/-- The params requested from the kernel by `mkIoUring` (first attempt). -/
def mkIoUringParams (sqe_count cqe_count_cfg : Int) (defer_taskrun : Bool) :
    IoUringParams :=
  { submit_all := true, coop_taskrun := true, cqsize := true,
    defer_taskrun := defer_taskrun, single_issuer := defer_taskrun,
    r_disabled := defer_taskrun,
    cq_entries := mkIoUringCqeCount sqe_count cqe_count_cfg }

/-! ## Statistics recorder (`RxStats`, netbench.cpp lines 304-452)

Time points are `Nat` nanoseconds of the steady clock.  The CPU-time fields
(`lastTimes_`, `lastClock_`) and the byte/requests rates only shape the text of
the emitted line, except for `lastRps_`: that is a `size_t` holding the
truncation of the previous interval's `double` rps, and it gates emission.  The
double arithmetic `(requests - lastRequests_) * 1000.0 / millis` truncated to an
integer is modelled as Nat division. -/

structure RxStatsState where
  loops : Nat
  overflows : Nat
  idle : Nat
  reads : List Nat
  countReads : Bool
  lastBytes : Nat
  lastRequests : Nat
  lastRps : Nat
  lastStats : Nat
deriving Repr, DecidableEq

/-- `RxStats` constructor state at time `now`. -/
def rxStatsInit (countReads : Bool) (now : Nat) : RxStatsState :=
  { loops := 0, overflows := 0, idle := 0, reads := [], countReads := countReads,
    lastBytes := 0, lastRequests := 0, lastRps := 0, lastStats := now }

/-- `RxStats::doneWait` (netbench.cpp lines 320-327): intervals above the 100 us
epsilon are accounted as idle time. -/
def doneWait (st : RxStatsState) (waitStarted now : Nat) : RxStatsState :=
  if waitStarted + 100000 < now then { st with idle := st.idle + (now - waitStarted) }
  else st

/-- `RxStats::doLog` (netbench.cpp lines 379-428).  A line is printed only when
`requests > lastRequests_ && lastRps_`; the per-interval counters `loops_`,
`overflows_` and `idle_` are reset unconditionally, the `reads_` histogram only
when a line was printed with `countReads_` set.  Returns the new state and
whether a line was emitted. -/
def doLog (st : RxStatsState) (bytes requests now duration : Nat) :
    RxStatsState × Bool :=
  let millis := duration / 1000000
  let emitted : Bool := decide (st.lastRequests < requests ∧ st.lastRps ≠ 0)
  let reads2 := if emitted ∧ st.countReads then ([] : List Nat) else st.reads
  let rpsTrunc := (requests - st.lastRequests) * 1000 / millis
  ({ st with loops := 0, overflows := 0, idle := 0, reads := reads2,
             lastBytes := bytes, lastRequests := requests, lastStats := now,
             lastRps := rpsTrunc },
   emitted)

/-- `RxStats::doneLoop` (netbench.cpp lines 329-349): bump the per-loop counters
and flush through `doLog` once at least one second elapsed since `lastStats_`. -/
def doneLoop (st : RxStatsState) (bytes requests reads now : Nat)
    (is_overflow : Bool) : RxStatsState × Bool :=
  let duration := now - st.lastStats
  let st1 := { st with
    loops := st.loops + 1,
    overflows := st.overflows + (if is_overflow then 1 else 0),
    reads := if st.countReads then st.reads ++ [reads] else st.reads }
  if 1000000000 ≤ duration then doLog st1 bytes requests now duration
  else (st1, false)

/-! ## Readiness-engine write path (`EPollRunner::doWrite`, netbench.cpp lines 1583-1621) -/

/-- Result of one nonblocking `send` call as the loop observes it. -/
inductive SendOutcome where
  | ok (n : Nat)
  | eagain
  | err
deriving Repr, DecidableEq

/-- The `while (ed->to_write)` send loop: `EAGAIN` breaks out, any other failure
zeroes `to_write` (then the loop exits), success subtracts
`min(to_write, res)`.  The `sends` list is the sequence of outcomes the kernel
returns; `none` models a run that exhausts the list before the loop exits (no
return observed). -/
def doWriteLoop (tw : Nat) (sends : List SendOutcome) : Option Nat :=
  if tw = 0 then some 0
  else
    match sends with
    | [] => none
    | SendOutcome.eagain :: _ => some tw
    | SendOutcome.err :: _ => some 0
    | SendOutcome.ok n :: rest => doWriteLoop (tw - min tw n) rest

/-- The `EPollData` fields claim C10 is about. -/
structure EPollDataState where
  to_write : Nat
  write_in_epoll : Bool
deriving Repr, DecidableEq

/-- The re-arm block at the end of `doWrite` (netbench.cpp lines 1603-1620):
disarm when armed and drained, arm when unarmed with bytes left. -/
def doWriteArm (write_in_epoll : Bool) (tw : Nat) : Bool :=
  if write_in_epoll ∧ tw = 0 then false
  else if ¬ write_in_epoll ∧ tw ≠ 0 then true
  else write_in_epoll

/-- `EPollRunner::doWrite` on a connection: run the send loop, then update
`write_in_epoll` (the `epoll_ctl` rearm is modelled by the flag). -/
def doWrite (ed : EPollDataState) (sends : List SendOutcome) : Option EPollDataState :=
  match doWriteLoop ed.to_write sends with
  | none => none
  | some tw =>
    some { to_write := tw, write_in_epoll := doWriteArm ed.write_in_epoll tw }

/-! ## Ring-engine read completion (`IOUringRunner::processRead`, netbench.cpp
lines 1234-1285)

Modelled for the plain-recv shapes (`recvmsg == false`); the
`recvmsg`+multishot envelope validation (netbench.cpp lines 984-997) calls
liburing helpers outside this repository and is outside the claims.  `die(...)`
is declared in util.h, which is not part of src/. -/

/-- The completion fields `processRead` reads: `res`, the `IORING_CQE_F_BUFFER`
flag with the buffer id from `flags >> 16`, and `IORING_CQE_F_MORE`. -/
structure Cqe where
  res : Int
  fBuffer : Bool
  bid : Nat
  fMore : Bool
deriving Repr, DecidableEq

/-- `providedBufferIdx` (netbench.cpp lines 851-856). -/
def providedBufferIdx (cqe : Cqe) : Int :=
  if cqe.fBuffer then (cqe.bid : Int) else -1

/-- The `BasicSock` fields `processRead` touches: the parser and the pending
`do_send` accumulator, plus the closing flag. -/
structure SockState where
  parser : ParserState
  sendToWrite : Nat
  sendCount : Nat
  closed : Bool

/-- `BasicSock::didRead` (netbench.cpp lines 973-1012), plain-recv shapes.
`providerMem`/`bidPos` give the provider pool bytes (`getData(idx)` is position
`bidPos idx`), `inlineMem` the inline `buff`.  Returns the updated sock and the
`DidReadResult` pair `(amount, recycleBufferIdx)`.  When a provider is active
and the completion carries no buffer flag, the source indexes `buffers_[-1]`
(undefined); the model reads from `bidPos cqe.bid`, a case outside any claim. -/
def sockDidRead (useProvider : Bool) (providerMem : Nat → Nat) (bidPos : Nat → Nat)
    (inlineMem : Nat → Nat) (st : SockState) (cqe : Cqe) :
    SockState × Int × Int :=
  if cqe.res ≤ 0 then (st, cqe.res, -1)
  else if useProvider then
    let r := consume providerMem (bidPos cqe.bid) cqe.res.toNat st.parser
    ({ st with parser := r.1,
               sendToWrite := st.sendToWrite + r.2.to_write,
               sendCount := st.sendCount + r.2.count },
     cqe.res, providedBufferIdx cqe)
  else
    let r := consume inlineMem 0 cqe.res.toNat st.parser
    ({ st with parser := r.1,
               sendToWrite := st.sendToWrite + r.2.to_write,
               sendCount := st.sendCount + r.2.count },
     cqe.res, -1)

/-- Engine switches consulted by `processRead`. -/
structure EngineCfg where
  useProvider : Bool
  multishotRecv : Bool
  fixedFiles : Bool
  stopping : Bool
deriving Repr, DecidableEq

/-- Ring submissions / side effects `processRead` can issue. -/
inductive Effect where
  | returnBuf (i : Nat)
  | provideBufs
  | postSend (len : Nat)
  | postRead
  | postClose
  | closeNow
deriving Repr, DecidableEq

/-- Outcome of one `processRead` dispatch: either a fatal abort (`die`), or the
surviving sock state (none when the sock was deleted) plus issued effects and
counter bumps. -/
inductive ReadOutcome where
  | fatal (msg : String)
  | ok (sock : Option SockState) (effects : List Effect) (bytesRead requestsDone : Nat)

/-- `ENOBUFS` on Linux. -/
def kENOBUFS : Int := 105

/-- Modelled from the spec: `die(...)` lives in util.h (not under src/).  Per
spec sections 7 and 9, a `die` reports a diagnostic and terminates the engine
("report and abort", "global errors terminate the engine thread and, via join,
the process"), so it is modelled as a noreturn fatal outcome; statements after a
`die` are unreachable. -/
def dieOutcome (msg : String) : ReadOutcome := ReadOutcome.fatal msg

/-- `IOUringRunner::processRead` (netbench.cpp lines 1234-1285): run
`sock->didRead`; recycle a positive buffer index; on progress post the owed send
and re-arm the read unless multishot with `F_MORE`; on `-ENOBUFS` `die`
(netbench.cpp lines 1254-1262, the subsequent `addRead` being dead code); on
other EOF/errors close the connection (direct close under fixed files). -/
def processRead (cfg : EngineCfg) (providerMem : Nat → Nat) (bidPos : Nat → Nat)
    (inlineMem : Nat → Nat) (st : SockState) (cqe : Cqe) : ReadOutcome :=
  let dr := sockDidRead cfg.useProvider providerMem bidPos inlineMem st cqe
  let st1 := dr.1
  let amount := dr.2.1
  let recycleIdx := dr.2.2
  let effs0 : List Effect :=
    if 0 < recycleIdx then [Effect.returnBuf recycleIdx.toNat, Effect.provideBufs] else []
  if 0 < amount then
    let hasSend := 0 < st1.sendToWrite
    let st2 := if hasSend then { st1 with sendToWrite := 0, sendCount := 0 } else st1
    let effs1 := if hasSend then [Effect.postSend st1.sendToWrite] else []
    let reqs := if hasSend then st1.sendCount else 0
    let effs2 := if ¬ cfg.multishotRecv ∨ ¬ cqe.fMore then [Effect.postRead] else []
    ReadOutcome.ok (some st2) (effs0 ++ effs1 ++ effs2) amount.toNat reqs
  else
    if cqe.res = -kENOBUFS then
      dieOutcome "not enough buffers, but will just requeue"
    else if cfg.fixedFiles then
      ReadOutcome.ok (some { st1 with closed := true }) (effs0 ++ [Effect.postClose]) 0 0
    else
      ReadOutcome.ok none (effs0 ++ [Effect.closeNow]) 0 0

/-- Whether an outcome posts another read submission. -/
def postsRead : ReadOutcome → Bool
  | ReadOutcome.fatal _ => false
  | ReadOutcome.ok _ effs _ _ => effs.contains Effect.postRead

/-! # Theorems -/

/-! ## C1: zero-length frames -/

/-- C1: FALSE on the code.  At a frame boundary (any residual `size_buff` bytes
`junk`), feeding `consume` an 8-byte header whose length word is 0 (reply-size
bytes arbitrary) emits NO completion — `count` and `to_write` stay 0, because the
zero length word never satisfies the `is_reading[0] &&` guard — and the parser is
not reset: it is left with `size_buff_have = 8` and `so_far = 8`, wedged. -/
theorem zero_length_header_no_completion (junk : List Nat) (b4 b5 b6 b7 : Nat) :
    (consume (memOf [0, 0, 0, 0, b4, b5, b6, b7]) 0 8 (freshParser junk)).2 =
      { to_write := 0, count := 0 } ∧
    (consume (memOf [0, 0, 0, 0, b4, b5, b6, b7]) 0 8 (freshParser junk)).1.size_buff_have = 8 ∧
    (consume (memOf [0, 0, 0, 0, b4, b5, b6, b7]) 0 8 (freshParser junk)).1.so_far = 8 :=
  ⟨rfl, rfl, rfl⟩

/-! ## C2: multiple frames in one consume call -/

/-- C2: FALSE on the code.  The 18-byte chunk `twoFrames` contains two complete
well-formed frames with reply sizes 5 and 7, yet a single `consume` call over it
returns one completion and `to_write = 5`: after the first frame the source
advances `data` by the whole call length (`data += n`), so the second frame's
header is read 9 bytes past its true position — here past the end of the chunk
(bytes modelled as 0, whatever the process memory holds there) — instead of the
claimed two completions with reply sizes 5 and 7. -/
theorem two_frames_one_call_misparsed (junk : List Nat) :
    (consume (memOf twoFrames) 0 18 (freshParser junk)).2 = { to_write := 5, count := 1 } ∧
    ({ to_write := 5, count := 1 } : ConsumeResults) ≠ { to_write := 12, count := 2 } :=
  ⟨rfl, by decide⟩

/-! ## C3: splitting idempotence -/

/-- C3: FALSE on the code.  Feeding `twoFrames` one byte per `consume` call yields
the correct totals (2 completions, 12 owed bytes), while feeding the same bytes
in one whole-buffer call yields (1, 5) — the `data += n` advance described at
`two_frames_one_call_misparsed` — so the two feeds do not return identical
totals.  The fresh parser's indeterminate scratch bytes are instantiated as
zeros; in both runs every scratch byte read was first written by this input. -/
theorem byte_feed_vs_whole_feed_differ :
    (runChunks (memOf twoFrames) (freshParser [0, 0, 0, 0, 0, 0, 0, 0])
        { to_write := 0, count := 0 } (byteChunks 18)).2 =
      { to_write := 12, count := 2 } ∧
    (runChunks (memOf twoFrames) (freshParser [0, 0, 0, 0, 0, 0, 0, 0])
        { to_write := 0, count := 0 } [(0, 18)]).2 = { to_write := 5, count := 1 } ∧
    ({ to_write := 12, count := 2 } : ConsumeResults) ≠ { to_write := 5, count := 1 } :=
  ⟨by decide, by decide, by decide⟩

/-! ## C4: -ENOBUFS is fatal -/

/-- C4: a read completion with `res == -ENOBUFS` makes `processRead` report a
diagnostic and abort (`die`, modelled from the spec as noreturn — see
`dieOutcome`), for every engine configuration, sock state and completion flags;
in particular no further read is posted for the socket (the `addRead` after the
`die` in the source is unreachable). -/
theorem enobufs_fatal_no_requeue (cfg : EngineCfg) (providerMem bidPos inlineMem : Nat → Nat)
    (st : SockState) (fb : Bool) (bid : Nat) (fm : Bool) :
    processRead cfg providerMem bidPos inlineMem st
        { res := -kENOBUFS, fBuffer := fb, bid := bid, fMore := fm } =
      ReadOutcome.fatal "not enough buffers, but will just requeue" ∧
    postsRead (processRead cfg providerMem bidPos inlineMem st
        { res := -kENOBUFS, fBuffer := fb, bid := bid, fMore := fm }) = false :=
  ⟨rfl, rfl⟩

/-! ## C7: shared-ring tail publication -/

/-- State of the V2 provider after any sequence of `returnIndex` calls: the
staging level is the return count mod 32, and the cached tail and the published
trace follow the batch counter (one publish at construction, one per full batch
of 32). -/
theorem v2_fold_formula : ∀ (is : List Nat) (count : Nat),
    (is.foldl v2ReturnIndex (v2Construct count)).cachedIndices = is.length % 32 ∧
    (is.foldl v2ReturnIndex (v2Construct count)).tailCached =
      (count + 32 * (is.length / 32)) % 65536 ∧
    (is.foldl v2ReturnIndex (v2Construct count)).published =
      (List.range (is.length / 32 + 1)).map (fun j => (count + 32 * j) % 65536) := by
  intro is count
  induction is using List.reverseRecOn with
  | nil =>
    refine ⟨rfl, by simp [v2Construct], ?_⟩
    simp [v2Construct, List.range_succ]
  | append_singleton l a ih =>
    obtain ⟨ih1, ih2, ih3⟩ := ih
    have hlen : (l ++ [a]).length = l.length + 1 := by simp
    rw [List.foldl_append, List.foldl_cons, List.foldl_nil, hlen]
    generalize hgen : List.foldl v2ReturnIndex (v2Construct count) l = s at ih1 ih2 ih3 ⊢
    unfold v2ReturnIndex
    rw [ih1, ih2, ih3]
    rcases Nat.lt_or_ge (l.length % 32 + 1) 32 with h | h
    · rw [if_pos h]
      refine ⟨?_, ?_, ?_⟩
      · show l.length % 32 + 1 = (l.length + 1) % 32
        omega
      · show (count + 32 * (l.length / 32)) % 65536 =
          (count + 32 * ((l.length + 1) / 32)) % 65536
        have hd : (l.length + 1) / 32 = l.length / 32 := by omega
        rw [hd]
      · show List.map (fun j => (count + 32 * j) % 65536) (List.range (l.length / 32 + 1)) =
          List.map (fun j => (count + 32 * j) % 65536) (List.range ((l.length + 1) / 32 + 1))
        have hd : (l.length + 1) / 32 = l.length / 32 := by omega
        rw [hd]
    · rw [if_neg (by omega : ¬ (l.length % 32 + 1 < 32))]
      have h31 : l.length % 32 = 31 := by omega
      have hdiv : (l.length + 1) / 32 = l.length / 32 + 1 := by omega
      refine ⟨?_, ?_, ?_⟩
      · show (0 : Nat) = (l.length + 1) % 32
        omega
      · show ((count + 32 * (l.length / 32)) % 65536 + 32) % 65536 =
          (count + 32 * ((l.length + 1) / 32)) % 65536
        rw [hdiv]
        omega
      · show List.map (fun j => (count + 32 * j) % 65536) (List.range (l.length / 32 + 1)) ++
            [((count + 32 * (l.length / 32)) % 65536 + 32) % 65536] =
          List.map (fun j => (count + 32 * j) % 65536) (List.range ((l.length + 1) / 32 + 1))
        have he : ((count + 32 * (l.length / 32)) % 65536 + 32) % 65536 =
            (count + 32 * (l.length / 32 + 1)) % 65536 := by omega
        rw [he, hdiv]
        simp [List.range_succ]

/-- C7 amended: over any run, the values successively published to the ring tail
with the release-store are the mod-2^16 truncations of the strictly structured
nondecreasing counter `count + 32·j` (one batch of 32 per publish); the raw
16-bit published values themselves can wrap (see `tail_wraps_decreases`). -/
theorem tail_published_mod_monotone (count : Nat) (is : List Nat)
    (_hc : count < 65535) :
    (is.foldl v2ReturnIndex (v2Construct count)).published =
      ((List.range (is.length / 32 + 1)).map (fun j => count + 32 * j)).map
        (fun v => v % 65536) ∧
    (∀ j1 j2 : Nat, j1 ≤ j2 → count + 32 * j1 ≤ count + 32 * j2) := by
  refine ⟨?_, fun j1 j2 h => by omega⟩
  rw [(v2_fold_formula is count).2.2, List.map_map]
  rfl

/-- C7 counterexample to the claim as stated: constructing the shared provider
with `count = 65504` (accepted: the constructor only rejects `count >= 65535`)
publishes 65504, and the first full batch of 32 returns publishes
`(65504 + 32) mod 2^16 = 0 < 65504`: the published tail value decreases. -/
theorem tail_wraps_decreases :
    ((List.range 32).foldl v2ReturnIndex (v2Construct 65504)).published = [65504, 0] ∧
    ¬ (65504 ≤ 0) := by decide

/-- Witness for `tail_published_mod_monotone` at `count = 100` with 64 returns. -/
theorem tail_published_mod_monotone_witness :
    ((List.range 64).foldl v2ReturnIndex (v2Construct 100)).published =
      ((List.range 3).map (fun j => 100 + 32 * j)).map (fun v => v % 65536) :=
  (tail_published_mod_monotone 100 (List.range 64) (by decide)).1

/-! ## C8: requested completion-queue size -/

/-- C8 amended: `mkIoUring` requests `cq_entries = cqe_count` whenever the
configured `cqe_count` is positive — the explicit value overrides the `128 ×
sqe_count` default rather than being combined with it by `max` — and falls back
to `128 × sqe_count` only when the configured value is `<= 0`; the first init
attempt always requests `SUBMIT_ALL | COOP_TASKRUN | CQSIZE`. -/
theorem cqe_count_override (s c : Int) (d : Bool) :
    (mkIoUringParams s c d).cq_entries = (if c ≤ 0 then 128 * s else c) ∧
    (0 < c → (mkIoUringParams s c d).cq_entries = c) ∧
    (c ≤ 0 → (mkIoUringParams s c d).cq_entries = 128 * s) ∧
    (mkIoUringParams s c d).submit_all = true ∧
    (mkIoUringParams s c d).coop_taskrun = true ∧
    (mkIoUringParams s c d).cqsize = true := by
  refine ⟨rfl, fun h => ?_, fun h => ?_, rfl, rfl, rfl⟩
  · simp only [mkIoUringParams, mkIoUringCqeCount]
    rw [if_neg (by omega)]
  · simp only [mkIoUringParams, mkIoUringCqeCount]
    rw [if_pos h]

/-- C8 counterexample to the claim as stated: with `sqe_count = 64` and explicit
`cqe_count = 100`, the requested CQ size is 100, not
`max(128 × 64, 100) = 8192`; it is smaller than `128 × sqe_count`. -/
theorem cqe_count_not_max :
    (mkIoUringParams 64 100 false).cq_entries = 100 ∧
    ¬ (128 * 64 ≤ (mkIoUringParams 64 100 false).cq_entries) := by decide

/-- Witness for `cqe_count_override`: a positive explicit value is used as-is,
a non-positive one falls back to `128 × sqe_count`. -/
theorem cqe_count_override_witness :
    (mkIoUringParams 64 100 false).cq_entries = 100 ∧
    (mkIoUringParams 64 0 false).cq_entries = 128 * 64 :=
  ⟨(cqe_count_override 64 100 false).2.1 (by decide),
   (cqe_count_override 64 0 false).2.2.1 (by decide)⟩

/-! ## C9: statistics flush -/

/-- C9 amended: `doneLoop` flushes exactly when at least one wall-clock second
elapsed since the last flush, and at a flush the per-interval counters `loops`,
`overflows` and `idle` are always reset — but a summary line is emitted only
when requests increased since the last flush AND the previous flush computed a
nonzero (truncated) rps; otherwise the flush is silent.  Below one second
nothing is emitted and the counters carry over. -/
theorem stats_flush_behavior (st : RxStatsState) (bytes requests reads now : Nat)
    (ov : Bool) :
    (1000000000 ≤ now - st.lastStats →
      ((doneLoop st bytes requests reads now ov).1.loops = 0 ∧
       (doneLoop st bytes requests reads now ov).1.overflows = 0 ∧
       (doneLoop st bytes requests reads now ov).1.idle = 0 ∧
       ((doneLoop st bytes requests reads now ov).2 = true ↔
         (st.lastRequests < requests ∧ st.lastRps ≠ 0)))) ∧
    (now - st.lastStats < 1000000000 →
      ((doneLoop st bytes requests reads now ov).2 = false ∧
       (doneLoop st bytes requests reads now ov).1.loops = st.loops + 1 ∧
       (doneLoop st bytes requests reads now ov).1.idle = st.idle ∧
       (doneLoop st bytes requests reads now ov).1.lastStats = st.lastStats ∧
       (doneLoop st bytes requests reads now ov).1.lastRps = st.lastRps)) := by
  constructor
  · intro h
    simp [doneLoop, doLog, if_pos h, decide_eq_true_eq]
  · intro h
    simp [doneLoop, if_neg (by omega : ¬ 1000000000 ≤ now - st.lastStats)]

/-- C9 counterexample to the claim as stated: a fresh recorder, first `doneLoop`
two seconds later with 5 requests done: the elapsed time is ≥ 1 s and the flush
happens (`loops` resets to 0), yet no line is emitted because the stored
previous rps is still zero (`requests > lastRequests_ && lastRps_` fails). -/
theorem stats_first_flush_silent :
    (doneLoop (rxStatsInit true 0) 100 5 1 2000000000 false).2 = false ∧
    1000000000 ≤ 2000000000 - (rxStatsInit true 0).lastStats ∧
    (doneLoop (rxStatsInit true 0) 100 5 1 2000000000 false).1.loops = 0 := by
  decide

/-- Witness for `stats_flush_behavior`: the flush branch at a concrete state. -/
theorem stats_flush_behavior_witness :
    (doneLoop (rxStatsInit false 5) 1 2 3 2000000005 true).1.loops = 0 :=
  ((stats_flush_behavior (rxStatsInit false 5) 1 2 3 2000000005 true).1
    (by decide)).1

/-! ## C10: write-interest arming -/

/-- The rearm block computes exactly "armed iff bytes pending". -/
theorem doWriteArm_iff (b : Bool) (tw : Nat) : doWriteArm b tw = true ↔ 0 < tw := by
  cases b <;> rcases Nat.eq_zero_or_pos tw with h | h <;>
    simp [doWriteArm, h] <;> omega

/-- C10: after every return of `doWrite` (the send loop exited via drain, a
failure zeroing `to_write`, or `EAGAIN`), the connection's `write_in_epoll`
flag — i.e. write interest armed in the notifier — holds if and only if the
connection still has pending reply bytes. -/
theorem doWrite_arms_iff_pending (ed : EPollDataState) (sends : List SendOutcome)
    (ed2 : EPollDataState) (h : doWrite ed sends = some ed2) :
    (ed2.write_in_epoll = true ↔ 0 < ed2.to_write) := by
  unfold doWrite at h
  cases hl : doWriteLoop ed.to_write sends with
  | none => rw [hl] at h; cases h
  | some tw =>
    rw [hl] at h
    cases h
    exact doWriteArm_iff ed.write_in_epoll tw

/-- Witness for `doWrite_arms_iff_pending`: a 5-byte backlog, one partial send of
2 bytes then `EAGAIN`: 3 bytes remain and write interest is armed. -/
theorem doWrite_arms_iff_pending_witness :
    doWrite { to_write := 5, write_in_epoll := false }
        [SendOutcome.ok 2, SendOutcome.eagain] =
      some { to_write := 3, write_in_epoll := true } ∧
    (({ to_write := 3, write_in_epoll := true } : EPollDataState).write_in_epoll = true ↔
      0 < ({ to_write := 3, write_in_epoll := true } : EPollDataState).to_write) :=
  ⟨by decide,
   doWrite_arms_iff_pending { to_write := 5, write_in_epoll := false }
     [SendOutcome.ok 2, SendOutcome.eagain]
     { to_write := 3, write_in_epoll := true } (by decide)⟩

/-! ## C5 and C6: classic-pool free-list machinery -/

theorem listSet_cons (r : Range) (l : List Range) :
    listSet (r :: l) = r.toFinset ∪ listSet l := rfl

theorem mem_listSet {x : Nat} {l : List Range} :
    x ∈ listSet l ↔ ∃ r ∈ l, x ∈ r.toFinset := by
  induction l with
  | nil => simp [listSet]
  | cons r t ih => simp [listSet_cons, ih]

theorem toFinset_subset_listSet {r : Range} {l : List Range} (h : r ∈ l) :
    r.toFinset ⊆ listSet l :=
  fun _ hx => mem_listSet.mpr ⟨r, h, hx⟩

theorem disjoint_listSet {t : Finset Nat} {l : List Range}
    (h : ∀ r ∈ l, Disjoint t r.toFinset) : Disjoint t (listSet l) := by
  induction l with
  | nil => simp [listSet]
  | cons r s ih =>
    rw [listSet_cons, Finset.disjoint_union_right]
    exact ⟨h r (by simp), ih fun q hq => h q (by simp [hq])⟩

theorem Range.card_toFinset (r : Range) : r.toFinset.card = r.count := by
  simp [Range.toFinset]

theorem count_le_card {r : Range} {l : List Range} (h : r ∈ l) :
    r.count ≤ (listSet l).card := by
  rw [← Range.card_toFinset]
  exact Finset.card_le_card (toFinset_subset_listSet h)

theorem sumCounts_eq_card {l : List Range} (h : RangesOk l) :
    sumCounts l = (listSet l).card := by
  induction l with
  | nil => simp [sumCounts, listSet]
  | cons r t ih =>
    obtain ⟨h1, h2⟩ := h
    rw [List.pairwise_cons] at h2
    have hdis : Disjoint r.toFinset (listSet t) := disjoint_listSet h2.1
    have : sumCounts (r :: t) = r.count + sumCounts t := rfl
    rw [this, listSet_cons, Finset.card_union_of_disjoint hdis, Range.card_toFinset,
      ih ⟨fun q hq => h1 q (by simp [hq]), h2.2⟩]

theorem sumCounts_append (l1 l2 : List Range) :
    sumCounts (l1 ++ l2) = sumCounts l1 + sumCounts l2 := by
  induction l1 with
  | nil => simp [sumCounts]
  | cons r t ih =>
    have h1 : sumCounts (r :: (t ++ l2)) = r.count + sumCounts (t ++ l2) := rfl
    have h2 : sumCounts (r :: t) = r.count + sumCounts t := rfl
    rw [List.cons_append, h1, h2, ih]
    omega

theorem mergeIdx_some {r r2 : Range} {i : Nat} (hc : r.count + 1 < 65536)
    (h : r.mergeIdx i = some r2) :
    r2.toFinset = insert i r.toFinset ∧ r2.count = r.count + 1 ∧ i ∉ r.toFinset := by
  have hm : (r.count + 1) % 65536 = r.count + 1 := Nat.mod_eq_of_lt hc
  unfold Range.mergeIdx at h
  split_ifs at h with h1 h2 <;> rw [Option.some.injEq] at h <;> subst h
  · refine ⟨?_, by simp [hm], ?_⟩
    · ext x
      simp only [Range.toFinset, Finset.mem_Ico, Finset.mem_insert, hm]
      omega
    · simp only [Range.toFinset, Finset.mem_Ico]
      omega
  · refine ⟨?_, by simp [hm], ?_⟩
    · ext x
      simp only [Range.toFinset, Finset.mem_Ico, Finset.mem_insert, hm]
      omega
    · simp only [Range.toFinset, Finset.mem_Ico]
      omega

theorem mergeRange_some {a b m : Range} (hc : a.count + b.count < 65536)
    (h : a.mergeRange b = some m) :
    m.toFinset = a.toFinset ∪ b.toFinset ∧ m.count = a.count + b.count := by
  have hm : (a.count + b.count) % 65536 = a.count + b.count := Nat.mod_eq_of_lt hc
  unfold Range.mergeRange at h
  split_ifs at h with h1 h2 <;> rw [Option.some.injEq] at h <;> subst h
  · refine ⟨?_, by simp [hm]⟩
    ext x
    simp only [Range.toFinset, Finset.mem_Ico, Finset.mem_union, hm]
    omega
  · refine ⟨?_, by simp [hm]⟩
    ext x
    simp only [Range.toFinset, Finset.mem_Ico, Finset.mem_union, hm]
    omega

theorem mergeRange_count {a b m : Range} (h : a.mergeRange b = some m) :
    m.count = (a.count + b.count) % 65536 := by
  unfold Range.mergeRange at h
  split_ifs at h <;> rw [Option.some.injEq] at h <;> subst h <;> rfl

theorem mergeRange_adj {a b : Range} (h : a.start + a.count = b.start) :
    a.mergeRange b = some { start := a.start, count := (a.count + b.count) % 65536 } := by
  simp [Range.mergeRange, h]

/-- The step invariant of `returnIndexList`: starting from a well-formed free
list and a fresh index `i` (not already in the list, total well below the
16-bit limit), the result is well formed and holds exactly the old indices plus
`i`. -/
theorem returnIndex_inv : ∀ (l : List Range) (i : Nat),
    RangesOk l → i ∉ listSet l → (listSet l).card + 1 ≤ 65535 →
    RangesOk (returnIndexList l i) ∧
    listSet (returnIndexList l i) = insert i (listSet l) := by
  intro l
  induction l with
  | nil =>
    intro i _ _ _
    refine ⟨⟨by simp [returnIndexList], by simp [returnIndexList]⟩, ?_⟩
    ext x
    simp only [returnIndexList, listSet, List.foldr, Range.toFinset, Finset.mem_union,
      Finset.mem_Ico, Finset.not_mem_empty, or_false, Finset.mem_insert]
    omega
  | cons x xs ih =>
    intro i hOk hni hcard
    have hx1 : 1 ≤ x.count := hOk.1 x (by simp)
    have hxcard : x.count + 1 < 65536 := by
      have := count_le_card (l := x :: xs) (by simp : x ∈ x :: xs)
      omega
    have hnix : i ∉ x.toFinset := fun hmem =>
      hni (mem_listSet.mpr ⟨x, by simp, hmem⟩)
    match xs with
    | [] =>
      cases hm : x.mergeIdx i with
      | some b2 =>
        obtain ⟨hset, hcnt, _⟩ := mergeIdx_some hxcard hm
        have hres : returnIndexList [x] i = [b2] := by
          simp [returnIndexList, hm]
        rw [hres]
        refine ⟨⟨fun r hr => by simp at hr; subst hr; omega, by simp⟩, ?_⟩
        rw [show listSet [b2] = b2.toFinset ∪ ∅ from rfl,
          show listSet [x] = x.toFinset ∪ ∅ from rfl, hset]
        ext w
        simp only [Finset.mem_union, Finset.mem_insert, Finset.not_mem_empty]
        tauto
      | none =>
        have hres : returnIndexList [x] i = [x, { start := i, count := 1 }] := by
          simp [returnIndexList, hm]
        rw [hres]
        constructor
        · refine ⟨fun r hr => ?_, ?_⟩
          · rcases List.mem_cons.mp hr with h | h
            · subst h; exact hx1
            · simp at h; subst h; simp
          · refine List.pairwise_cons.mpr ⟨fun r hr => ?_, by simp⟩
            simp at hr; subst hr
            rw [Finset.disjoint_right]
            intro w hw
            simp only [Range.toFinset, Finset.mem_Ico] at hw ⊢
            have : w = i := by omega
            subst this
            exact fun hc => hnix (by simpa [Range.toFinset] using hc)
        · ext w
          simp only [listSet, List.foldr, Range.toFinset, Finset.mem_union, Finset.mem_Ico,
            Finset.not_mem_empty, or_false, Finset.mem_insert]
          omega
    | [y] =>
      have hy1 : 1 ≤ y.count := hOk.1 y (by simp)
      have hycard : y.count + 1 < 65536 := by
        have := count_le_card (l := [x, y]) (by simp : y ∈ [x, y])
        omega
      have hniy : i ∉ y.toFinset := fun hmem =>
        hni (mem_listSet.mpr ⟨y, by simp, hmem⟩)
      have hdisxy : Disjoint x.toFinset y.toFinset := by
        have := hOk.2
        rw [List.pairwise_cons] at this
        exact this.1 y (by simp)
      have hSeq : listSet [x, y] = x.toFinset ∪ (y.toFinset ∪ ∅) := rfl
      cases hm1 : y.mergeIdx i with
      | some b2 =>
        obtain ⟨hset, hcnt, _⟩ := mergeIdx_some hycard hm1
        have hres : returnIndexList [x, y] i = [x, b2] := by
          simp [returnIndexList, hm1]
        rw [hres]
        constructor
        · refine ⟨fun r hr => ?_, ?_⟩
          · rcases List.mem_cons.mp hr with h | h
            · subst h; exact hx1
            · simp at h; subst h; omega
          · refine List.pairwise_cons.mpr ⟨fun r hr => ?_, by simp⟩
            simp at hr; subst hr
            rw [hset, Finset.disjoint_insert_right]
            exact ⟨hnix, hdisxy⟩
        · rw [show listSet [x, b2] = x.toFinset ∪ (b2.toFinset ∪ ∅) from rfl, hSeq, hset]
          ext w
          simp only [Finset.mem_union, Finset.mem_insert, Finset.not_mem_empty]
          tauto
      | none =>
        cases hm2 : x.mergeIdx i with
        | some a2 =>
          obtain ⟨hseta, hcnta, _⟩ := mergeIdx_some hxcard hm2
          have ha2y : Disjoint a2.toFinset y.toFinset := by
            rw [hseta, Finset.disjoint_insert_left]
            exact ⟨hniy, hdisxy⟩
          cases hm3 : a2.mergeRange y with
          | some m =>
            have hcm : a2.count + y.count < 65536 := by
              have hcxy : x.count + y.count = (listSet [x, y]).card := by
                rw [hSeq, Finset.union_empty, Finset.card_union_of_disjoint hdisxy,
                  Range.card_toFinset, Range.card_toFinset]
              omega
            obtain ⟨hsetm, hcntm⟩ := mergeRange_some hcm hm3
            have hres : returnIndexList [x, y] i = [m] := by
              simp [returnIndexList, hm1, hm2, hm3]
            rw [hres]
            constructor
            · exact ⟨fun r hr => by simp at hr; subst hr; omega, by simp⟩
            · rw [show listSet [m] = m.toFinset ∪ ∅ from rfl, hsetm, hseta, hSeq]
              ext w
              simp only [Finset.mem_union, Finset.mem_insert, Finset.not_mem_empty]
              tauto
          | none =>
            have hres : returnIndexList [x, y] i = [a2, y] := by
              simp [returnIndexList, hm1, hm2, hm3]
            rw [hres]
            constructor
            · refine ⟨fun r hr => ?_, ?_⟩
              · rcases List.mem_cons.mp hr with h | h
                · subst h; omega
                · simp at h; subst h; exact hy1
              · exact List.pairwise_cons.mpr
                  ⟨fun r hr => by simp at hr; subst hr; exact ha2y, by simp⟩
            · rw [show listSet [a2, y] = a2.toFinset ∪ (y.toFinset ∪ ∅) from rfl, hseta, hSeq]
              ext w
              simp only [Finset.mem_union, Finset.mem_insert, Finset.not_mem_empty]
              tauto
        | none =>
          have hres : returnIndexList [x, y] i = [x, y, { start := i, count := 1 }] := by
            simp [returnIndexList, hm1, hm2]
          rw [hres]
          have hsingleton : ({ start := i, count := 1 } : Range).toFinset = {i} := by
            ext w
            simp only [Range.toFinset, Finset.mem_Ico, Finset.mem_singleton]
            omega
          constructor
          · refine ⟨fun r hr => ?_, ?_⟩
            · rcases List.mem_cons.mp hr with h | h
              · subst h; exact hx1
              · rcases List.mem_cons.mp h with h2 | h2
                · subst h2; exact hy1
                · simp at h2; subst h2; simp
            · refine List.pairwise_cons.mpr ⟨fun r hr => ?_, ?_⟩
              · rcases List.mem_cons.mp hr with h | h
                · subst h; exact hdisxy
                · simp at h; subst h
                  rw [hsingleton, Finset.disjoint_singleton_right]
                  exact hnix
              · refine List.pairwise_cons.mpr ⟨fun r hr => ?_, by simp⟩
                simp at hr; subst hr
                rw [hsingleton, Finset.disjoint_singleton_right]
                exact hniy
          · rw [show listSet [x, y, { start := i, count := 1 }] =
                x.toFinset ∪ (y.toFinset ∪ (Range.toFinset { start := i, count := 1 } ∪ ∅))
                from rfl, hsingleton, hSeq]
            ext w
            simp only [Finset.mem_union, Finset.mem_insert, Finset.mem_singleton,
              Finset.not_mem_empty]
            tauto
    | y :: z :: t =>
      have hOkxs : RangesOk (y :: z :: t) := by
        obtain ⟨h1, h2⟩ := hOk
        exact ⟨fun r hr => h1 r (by simp [hr]), (List.pairwise_cons.mp h2).2⟩
      have hsub : listSet (y :: z :: t) ⊆ listSet (x :: y :: z :: t) := by
        intro w hw
        rw [mem_listSet] at hw ⊢
        obtain ⟨r, hr, hwr⟩ := hw
        exact ⟨r, List.mem_cons_of_mem x hr, hwr⟩
      have hnixs : i ∉ listSet (y :: z :: t) := fun hmem => hni (hsub hmem)
      have hcardxs : (listSet (y :: z :: t)).card + 1 ≤ 65535 := by
        have := Finset.card_le_card hsub
        omega
      obtain ⟨hOk', hset'⟩ := ih i hOkxs hnixs hcardxs
      have hres : returnIndexList (x :: y :: z :: t) i =
          x :: returnIndexList (y :: z :: t) i := rfl
      rw [hres]
      have hdisx : ∀ r ∈ y :: z :: t, Disjoint x.toFinset r.toFinset :=
        (List.pairwise_cons.mp hOk.2).1
      have hdisxS : Disjoint x.toFinset (listSet (returnIndexList (y :: z :: t) i)) := by
        rw [hset', Finset.disjoint_insert_right]
        exact ⟨hnix, disjoint_listSet hdisx⟩
      constructor
      · refine ⟨fun r hr => ?_, ?_⟩
        · rcases List.mem_cons.mp hr with h | h
          · subst h; exact hx1
          · exact hOk'.1 r h
        · refine List.pairwise_cons.mpr ⟨fun r hr => ?_, hOk'.2⟩
          exact Finset.disjoint_of_subset_right (toFinset_subset_listSet hr) hdisxS
      · have hstep : listSet (x :: y :: z :: t) = x.toFinset ∪ listSet (y :: z :: t) := rfl
        rw [listSet_cons, hset', hstep]
        ext w
        simp only [Finset.mem_union, Finset.mem_insert]
        tauto

/-- Folding a list of returned indices over `returnIndexList`: fresh distinct
indices within the 16-bit budget keep the free list well formed and make it hold
exactly the old indices plus the returned ones. -/
theorem fold_returnIndex_inv : ∀ (p : List Nat) (l : List Range),
    RangesOk l → (∀ i ∈ p, i ∉ listSet l) → p.Nodup →
    (listSet l).card + p.length ≤ 65535 →
    RangesOk (p.foldl returnIndexList l) ∧
    listSet (p.foldl returnIndexList l) = listSet l ∪ p.toFinset := by
  intro p
  induction p with
  | nil =>
    intro l h _ _ _
    exact ⟨h, by simp⟩
  | cons a q ih =>
    intro l hOk hfresh hnd hcard
    have hlen : (a :: q).length = q.length + 1 := rfl
    rw [hlen] at hcard
    have ha : a ∉ listSet l := hfresh a (by simp)
    obtain ⟨hOk1, hset1⟩ := returnIndex_inv l a hOk ha (by omega)
    have hcard1 : (listSet (returnIndexList l a)).card + q.length ≤ 65535 := by
      rw [hset1, Finset.card_insert_of_not_mem ha]
      omega
    have hfresh1 : ∀ i ∈ q, i ∉ listSet (returnIndexList l a) := by
      intro i hi
      rw [hset1]
      simp only [Finset.mem_insert, not_or]
      exact ⟨fun heq => (List.nodup_cons.mp hnd).1 (heq ▸ hi),
        hfresh i (List.mem_cons_of_mem a hi)⟩
    obtain ⟨hOk2, hset2⟩ :=
      ih (returnIndexList l a) hOk1 hfresh1 (List.nodup_cons.mp hnd).2 hcard1
    rw [List.foldl_cons]
    refine ⟨hOk2, ?_⟩
    rw [hset2, hset1, List.toFinset_cons]
    ext w
    simp only [Finset.mem_union, Finset.mem_insert, List.mem_toFinset]
    tauto

theorem sumCounts_eq_sum_map (l : List Range) : sumCounts l = (l.map Range.count).sum := by
  induction l with
  | nil => rfl
  | cons r t ih =>
    have h : sumCounts (r :: t) = r.count + sumCounts t := rfl
    rw [h, ih, List.map_cons, List.sum_cons]

theorem sumCounts_perm {l l2 : List Range} (h : l.Perm l2) : sumCounts l = sumCounts l2 := by
  rw [sumCounts_eq_sum_map, sumCounts_eq_sum_map]
  exact (h.map Range.count).sum_eq

/-- The coalescing sweep preserves the total count as long as the total stays
within the 16-bit `count` field. -/
theorem sweep_sum : ∀ (t : List Range) (acc : Range),
    acc.count + sumCounts t ≤ 65535 →
    sumCounts (sweep acc t) = acc.count + sumCounts t := by
  intro t
  induction t with
  | nil =>
    intro acc _
    rfl
  | cons p q ih =>
    intro acc hb
    have hq : sumCounts (p :: q) = p.count + sumCounts q := rfl
    rw [hq] at hb
    cases hm : acc.mergeRange p with
    | some m =>
      have hcm : m.count = acc.count + p.count := by
        rw [mergeRange_count hm]
        exact Nat.mod_eq_of_lt (by omega)
      have hred : sweep acc (p :: q) = sweep m q := by simp [sweep, hm]
      rw [hred, ih m (by omega), hcm, hq]
      ring
    | none =>
      have hred : sweep acc (p :: q) = acc :: sweep p q := by simp [sweep, hm]
      have hcons : sumCounts (acc :: sweep p q) = acc.count + sumCounts (sweep p q) := rfl
      rw [hred, hcons, ih p (by omega), hq]

/-- `compact` preserves the total count (claim C6's invariant) as long as the
total stays within the 16-bit `count` field. -/
theorem compact_sum {l : List Range} (hb : sumCounts l ≤ 65535) :
    sumCounts (compact l) = sumCounts l := by
  rcases l with _ | ⟨a, _ | ⟨b, _ | ⟨c, t⟩⟩⟩
  · rfl
  · rfl
  · have hab : sumCounts [a, b] = a.count + (b.count + 0) := rfl
    cases hm : a.mergeRange b with
    | some m =>
      have hred : compact [a, b] = [m] := by
        show (match a.mergeRange b with | some x => [x] | none => [a, b]) = [m]
        rw [hm]
      have hcm : m.count = a.count + b.count := by
        rw [mergeRange_count hm]
        rw [hab] at hb
        exact Nat.mod_eq_of_lt (by omega)
      have h3 : sumCounts [m] = m.count + 0 := rfl
      rw [hred, h3, hcm, hab]
      ring
    | none =>
      have hred : compact [a, b] = [a, b] := by
        show (match a.mergeRange b with | some x => [x] | none => [a, b]) = [a, b]
        rw [hm]
      rw [hred]
  · cases hs : (a :: b :: c :: t).mergeSort (fun x y => decide (x.sortable ≤ y.sortable)) with
    | nil =>
      exfalso
      have hlen : ((a :: b :: c :: t).mergeSort
          (fun x y => decide (x.sortable ≤ y.sortable))).length =
          (a :: b :: c :: t).length := List.length_mergeSort _
      rw [hs] at hlen
      simp at hlen
    | cons s tt =>
      have hred : compact (a :: b :: c :: t) = sweep s tt := by
        show (match (a :: b :: c :: t).mergeSort (fun x y => decide (x.sortable ≤ y.sortable))
            with
          | [] => ([] : List Range)
          | s :: tt => sweep s tt) = sweep s tt
        rw [hs]
      have hperm : (s :: tt).Perm (a :: b :: c :: t) := by
        rw [← hs]
        exact List.mergeSort_perm _ _
      have hsum : sumCounts (s :: tt) = sumCounts (a :: b :: c :: t) := sumCounts_perm hperm
      have hcons : sumCounts (s :: tt) = s.count + sumCounts tt := rfl
      rw [hred, sweep_sum tt s (by rw [← hcons, hsum]; exact hb), ← hcons, hsum]

/-- C6 amended: `toProvideCount_` equals the sum of the `Range` counts.  This
holds after construction for every pool of at most 65535 buffers (the `Range`
fields are 16-bit, see `pool_invariant_fails_at_65536` for larger pools), and is
preserved by `returnIndex` for a fresh index under the documented free-list
invariants (ranges nonempty and non-overlapping, pool within the 16-bit bid
space), by `compact` while the total fits the 16-bit count field, and by
`provide` unconditionally on a nonempty free list. -/
theorem pool_count_invariant :
    (∀ (c : Nat) (w : Int), c ≤ 65535 → poolCountInv (poolConstruct c w)) ∧
    (∀ (st : PoolV1State) (i : Nat), poolCountInv st → RangesOk st.toProvide →
      i ∉ listSet st.toProvide → (listSet st.toProvide).card + 1 ≤ 65535 →
      poolCountInv (poolReturnIndex st i)) ∧
    (∀ st : PoolV1State, poolCountInv st → sumCounts st.toProvide ≤ 65535 →
      poolCountInv (poolCompact st)) ∧
    (∀ st : PoolV1State, poolCountInv st → st.toProvide ≠ [] →
      poolCountInv (poolProvide st)) := by
  refine ⟨?_, ?_, ?_, ?_⟩
  · intro c w hc
    show (c : Int) = (sumCounts [{ start := 0, count := c % 65536 }] : Nat)
    have h1 : sumCounts [{ start := 0, count := c % 65536 }] = c % 65536 + 0 := rfl
    have h2 : c % 65536 = c := Nat.mod_eq_of_lt (by omega)
    rw [h1, h2]
    push_cast
    ring
  · intro st i hinv hok hfresh hcard
    obtain ⟨hOk2, hset2⟩ := returnIndex_inv st.toProvide i hok hfresh hcard
    show st.toProvideCount + 1 = (sumCounts (returnIndexList st.toProvide i) : Nat)
    rw [sumCounts_eq_card hOk2, hset2, Finset.card_insert_of_not_mem hfresh,
      ← sumCounts_eq_card hok, hinv]
    push_cast
    ring
  · intro st hinv hb
    show st.toProvideCount = (sumCounts (compact st.toProvide) : Nat)
    rw [compact_sum hb]
    exact hinv
  · intro st hinv hne
    unfold poolCountInv poolProvide
    rw [List.getLast?_eq_getLast st.toProvide hne]
    have hsplit : st.toProvide.dropLast ++ [st.toProvide.getLast hne] = st.toProvide :=
      List.dropLast_concat_getLast hne
    have hsum : sumCounts st.toProvide =
        sumCounts st.toProvide.dropLast + (st.toProvide.getLast hne).count := by
      conv_lhs => rw [← hsplit]
      rw [sumCounts_append]
      have h1 : sumCounts [st.toProvide.getLast hne] =
          (st.toProvide.getLast hne).count + 0 := rfl
      rw [h1]
      ring
    rw [poolCountInv] at hinv
    rw [hinv, hsum]
    push_cast
    ring

/-- C6 counterexample to the claim as stated: constructing the classic pool with
`provided_buffer_count = 65536` stores `Range(0, 65536 mod 2^16) = Range(0, 0)`
(the `Range` count field is `uint16_t`) while `toProvideCount_ = 65536`, so the
counter does not equal the sum of the Range counts right after construction. -/
theorem pool_invariant_fails_at_65536 : ¬ poolCountInv (poolConstruct 65536 0) := by
  decide

/-- Witness for `pool_count_invariant`: all four preservation statements applied
to the concrete 4-buffer pool with watermark 1. -/
theorem pool_count_invariant_witness :
    poolCountInv (poolConstruct 4 1) ∧
    poolCountInv (poolReturnIndex (poolConstruct 4 1) 7) ∧
    poolCountInv (poolCompact (poolConstruct 4 1)) ∧
    poolCountInv (poolProvide (poolConstruct 4 1)) :=
  ⟨pool_count_invariant.1 4 1 (by decide),
   pool_count_invariant.2.1 (poolConstruct 4 1) 7 (by decide) (by decide) (by decide)
     (by decide),
   pool_count_invariant.2.2.1 (poolConstruct 4 1) (by decide) (by decide),
   pool_count_invariant.2.2.2 (poolConstruct 4 1) (by decide) (by decide)⟩

theorem listSet_perm {l l2 : List Range} (h : l.Perm l2) : listSet l = listSet l2 := by
  ext w
  simp only [mem_listSet]
  constructor
  · rintro ⟨r, hr, hw⟩
    exact ⟨r, h.mem_iff.mp hr, hw⟩
  · rintro ⟨r, hr, hw⟩
    exact ⟨r, h.mem_iff.mpr hr, hw⟩

theorem Ico_eq_of_eq {a b c d : Nat} (h : Finset.Ico a b = Finset.Ico c d) (hcd : c < d) :
    a = c ∧ b = d := by
  have H := fun x => Finset.ext_iff.mp h x
  simp only [Finset.mem_Ico] at H
  have h1 := H a
  have h2 := H c
  have h3 := H (b - 1)
  have h4 := H (d - 1)
  omega

/-- Two nonempty disjoint ranges whose union is the interval `[m, M)` tile it:
one of them starts at `m`, its end is the other's start, and the other ends at
`M`. -/
theorem pair_tiling {a b : Range} {m M : Nat} (ha : 1 ≤ a.count) (hb : 1 ≤ b.count)
    (hd : Disjoint a.toFinset b.toFinset)
    (hu : a.toFinset ∪ b.toFinset = Finset.Ico m M) :
    (a.start = m ∧ a.start + a.count = b.start ∧ b.start + b.count = M) ∨
    (b.start = m ∧ b.start + b.count = a.start ∧ a.start + a.count = M) := by
  have H := fun x => Finset.ext_iff.mp hu x
  simp only [Finset.mem_union, Finset.mem_Ico, Range.toFinset] at H
  have D : ∀ x : Nat, x ∈ a.toFinset → x ∉ b.toFinset := fun x hx =>
    Finset.disjoint_left.mp hd hx
  simp only [Finset.mem_Ico, Range.toFinset] at D
  have h1 := H m
  have h2 := H a.start
  have h3 := H b.start
  have h4 := H (a.start + a.count)
  have h5 := H (b.start + b.count)
  have h6 := H (a.start + a.count - 1)
  have h7 := H (b.start + b.count - 1)
  have h8 := H (M - 1)
  have d1 := D a.start
  have d2 := D b.start
  omega

/-- The sweep of `compact` collapses a sorted disjoint tiling of `[m, M)` into
the single range `[m, M)`. -/
theorem sweep_tiling : ∀ (t : List Range) (acc : Range) (m M : Nat),
    1 ≤ acc.count → (∀ r ∈ t, 1 ≤ r.count) →
    (acc :: t).Pairwise (fun x y => Disjoint x.toFinset y.toFinset) →
    (acc :: t).Pairwise (fun x y => x.start < y.start) →
    listSet (acc :: t) = Finset.Ico m M →
    M ≤ m + 65535 →
    sweep acc t = [{ start := m, count := M - m }] := by
  intro t
  induction t with
  | nil =>
    intro acc m M hc _ _ _ hset _
    have ha : acc.toFinset = Finset.Ico m M := by
      rw [← hset, listSet_cons]
      simp [listSet]
    have hmem : acc.start ∈ Finset.Ico m M := by
      rw [← ha]
      simp only [Range.toFinset, Finset.mem_Ico]
      omega
    have hmM : m < M := by
      have := Finset.mem_Ico.mp hmem
      omega
    simp only [Range.toFinset] at ha
    obtain ⟨h1, h2⟩ := Ico_eq_of_eq ha hmM
    have hacc : acc = { start := m, count := M - m } := by
      rcases acc with ⟨s, cnt⟩
      simp only [Range.mk.injEq]
      simp only at h1 h2
      omega
    rw [show sweep acc [] = [acc] from rfl, hacc]
  | cons p q ih =>
    intro acc m M hacc hcnts hdisj hlt hset hbound
    have hp1 : 1 ≤ p.count := hcnts p (by simp)
    have haccmem : acc.start ∈ Finset.Ico m M := by
      rw [← hset]
      refine toFinset_subset_listSet (show acc ∈ acc :: p :: q by simp) ?_
      simp only [Range.toFinset, Finset.mem_Ico]
      omega
    have hmM : m < M := by
      have := Finset.mem_Ico.mp haccmem
      omega
    have hmmem : m ∈ listSet (acc :: p :: q) := by
      rw [hset]
      simp only [Finset.mem_Ico]
      omega
    have hmacc : m ∈ acc.toFinset := by
      rcases mem_listSet.mp hmmem with ⟨r, hr, hmr⟩
      rcases List.mem_cons.mp hr with heq | hr2
      · exact heq ▸ hmr
      · exfalso
        have hlt2 : acc.start < r.start := (List.pairwise_cons.mp hlt).1 r hr2
        have hrm : r.start ≤ m := by
          simp only [Range.toFinset, Finset.mem_Ico] at hmr
          omega
        have ham : m ≤ acc.start := (Finset.mem_Ico.mp haccmem).1
        omega
    have hstart : acc.start = m := by
      have ham : m ≤ acc.start := (Finset.mem_Ico.mp haccmem).1
      simp only [Range.toFinset, Finset.mem_Ico] at hmacc
      omega
    have haccset : acc.toFinset = Finset.Ico m (m + acc.count) := by
      simp [Range.toFinset, hstart]
    have heM : m + acc.count ≤ M := by
      have hmem2 : m + acc.count - 1 ∈ Finset.Ico m M := by
        rw [← hset]
        refine toFinset_subset_listSet (show acc ∈ acc :: p :: q by simp) ?_
        simp only [Range.toFinset, Finset.mem_Ico, hstart]
        omega
      have := Finset.mem_Ico.mp hmem2
      omega
    have hdisjrest : Disjoint acc.toFinset (listSet (p :: q)) :=
      disjoint_listSet (List.pairwise_cons.mp hdisj).1
    have hrest : listSet (p :: q) = Finset.Ico (m + acc.count) M := by
      ext w
      constructor
      · intro hw
        have hw2 : w ∈ Finset.Ico m M := by
          rw [← hset, listSet_cons]
          exact Finset.mem_union_right _ hw
        have hw3 : w ∉ acc.toFinset := fun hc => (Finset.disjoint_left.mp hdisjrest hc) hw
        rw [haccset] at hw3
        simp only [Finset.mem_Ico] at hw2 hw3 ⊢
        omega
      · intro hw
        simp only [Finset.mem_Ico] at hw
        have hw2 : w ∈ listSet (acc :: p :: q) := by
          rw [hset]
          simp only [Finset.mem_Ico]
          omega
        rw [listSet_cons] at hw2
        rcases Finset.mem_union.mp hw2 with hc | h
        · exfalso
          rw [haccset] at hc
          simp only [Finset.mem_Ico] at hc
          omega
        · exact h
    have hpmem : p.start ∈ listSet (p :: q) := by
      refine toFinset_subset_listSet (show p ∈ p :: q by simp) ?_
      simp only [Range.toFinset, Finset.mem_Ico]
      omega
    have heMlt : m + acc.count < M := by
      rw [hrest] at hpmem
      have := Finset.mem_Ico.mp hpmem
      omega
    have hpe : p.start = m + acc.count := by
      have hpge : m + acc.count ≤ p.start := by
        rw [hrest] at hpmem
        exact (Finset.mem_Ico.mp hpmem).1
      have hemem : (m + acc.count) ∈ listSet (p :: q) := by
        rw [hrest]
        simp only [Finset.mem_Ico]
        omega
      rcases mem_listSet.mp hemem with ⟨r, hr, her⟩
      rcases List.mem_cons.mp hr with heq | hr2
      · subst heq
        simp only [Range.toFinset, Finset.mem_Ico] at her
        omega
      · exfalso
        have hlt2 : p.start < r.start :=
          ((List.pairwise_cons.mp (List.pairwise_cons.mp hlt).2).1) r hr2
        have : r.start ≤ m + acc.count := by
          simp only [Range.toFinset, Finset.mem_Ico] at her
          omega
        omega
    have hadj : acc.start + acc.count = p.start := by omega
    have hm := mergeRange_adj hadj
    have hdisj_ap : Disjoint acc.toFinset p.toFinset :=
      (List.pairwise_cons.mp hdisj).1 p (by simp)
    have hcount_le : acc.count + p.count ≤ M - m := by
      have hsub : acc.toFinset ∪ p.toFinset ⊆ Finset.Ico m M := by
        intro w hw
        rw [← hset, listSet_cons]
        rcases Finset.mem_union.mp hw with h | h
        · exact Finset.mem_union_left _ h
        · exact Finset.mem_union_right _
            (toFinset_subset_listSet (show p ∈ p :: q by simp) h)
      have hcard := Finset.card_le_card hsub
      rw [Finset.card_union_of_disjoint hdisj_ap, Range.card_toFinset,
        Range.card_toFinset, Nat.card_Ico] at hcard
      omega
    have hmerged_count : (acc.count + p.count) % 65536 = acc.count + p.count :=
      Nat.mod_eq_of_lt (by omega)
    have hm2set :
        ({ start := acc.start, count := (acc.count + p.count) % 65536 } : Range).toFinset =
          acc.toFinset ∪ p.toFinset := by
      ext w
      simp only [Range.toFinset, Finset.mem_union, Finset.mem_Ico, hmerged_count]
      omega
    have hsweep : sweep acc (p :: q) =
        sweep { start := acc.start, count := (acc.count + p.count) % 65536 } q := by
      show (match acc.mergeRange p with
        | some x => sweep x q
        | none => acc :: sweep p q) = _
      rw [hm]
    rw [hsweep]
    refine ih { start := acc.start, count := (acc.count + p.count) % 65536 } m M ?_ ?_ ?_ ?_ ?_
      hbound
    · show 1 ≤ (acc.count + p.count) % 65536
      rw [hmerged_count]
      omega
    · exact fun r hr => hcnts r (by simp [hr])
    · refine List.pairwise_cons.mpr ⟨?_, (List.pairwise_cons.mp (List.pairwise_cons.mp hdisj).2).2⟩
      intro r hr
      rw [hm2set, Finset.disjoint_union_left]
      exact ⟨(List.pairwise_cons.mp hdisj).1 r (by simp [hr]),
        ((List.pairwise_cons.mp (List.pairwise_cons.mp hdisj).2).1) r hr⟩
    · refine List.pairwise_cons.mpr ⟨?_, (List.pairwise_cons.mp (List.pairwise_cons.mp hlt).2).2⟩
      intro r hr
      show acc.start < r.start
      exact (List.pairwise_cons.mp hlt).1 r (by simp [hr])
    · rw [listSet_cons, hm2set, ← hset]
      show acc.toFinset ∪ p.toFinset ∪ listSet q = listSet (acc :: p :: q)
      rw [listSet_cons, listSet_cons, Finset.union_assoc]

/-- `compact` on a well-formed free list holding exactly the indices
`{0, ..., k-1}` (with `1 ≤ k ≤ 65535`) produces the single range `[0, k)`. -/
theorem compact_eq {l : List Range} {k : Nat} (hOk : RangesOk l)
    (hset : listSet l = Finset.range k) (hk1 : 1 ≤ k) (hk2 : k ≤ 65535) :
    compact l = [{ start := 0, count := k }] := by
  have hIco : listSet l = Finset.Ico 0 k := by rw [hset, Finset.range_eq_Ico]
  rcases l with _ | ⟨a, _ | ⟨b, _ | ⟨c, t⟩⟩⟩
  · exfalso
    have h0 : (0 : Nat) ∈ listSet ([] : List Range) := by
      rw [hIco]
      simp only [Finset.mem_Ico]
      omega
    simp [listSet] at h0
  · have ha : a.toFinset = Finset.Ico 0 k := by
      rw [← hIco, listSet_cons]
      simp [listSet]
    simp only [Range.toFinset] at ha
    obtain ⟨h1, h2⟩ := Ico_eq_of_eq ha (by omega)
    have heq : a = { start := 0, count := k } := by
      rcases a with ⟨s, cnt⟩
      simp only [Range.mk.injEq]
      simp only at h1 h2
      omega
    rw [show compact [a] = [a] from rfl, heq]
  · have hd : Disjoint a.toFinset b.toFinset := (List.pairwise_cons.mp hOk.2).1 b (by simp)
    have ha1 : 1 ≤ a.count := hOk.1 a (by simp)
    have hb1 : 1 ≤ b.count := hOk.1 b (by simp)
    have hu : a.toFinset ∪ b.toFinset = Finset.Ico 0 k := by
      rw [← hIco, listSet_cons, listSet_cons]
      simp [listSet, Finset.union_assoc]
    have hsum : a.count + b.count = k := by
      have hcu := Finset.card_union_of_disjoint hd
      rw [hu, Nat.card_Ico, Range.card_toFinset, Range.card_toFinset] at hcu
      omega
    have hkmod : k % 65536 = k := Nat.mod_eq_of_lt (by omega)
    rcases pair_tiling ha1 hb1 hd hu with ⟨h1, h2, _⟩ | ⟨h1, h2, h3⟩
    · have hm := mergeRange_adj h2
      have hred : compact [a, b] =
          [{ start := a.start, count := (a.count + b.count) % 65536 }] := by
        show (match a.mergeRange b with | some x => [x] | none => [a, b]) = _
        rw [hm]
      rw [hred, h1, hsum, hkmod]
    · have hfirst : ¬ (a.start + a.count = b.start) := by omega
      have hm : a.mergeRange b =
          some { start := b.start, count := (a.count + b.count) % 65536 } := by
        unfold Range.mergeRange
        rw [if_neg hfirst, if_pos h2]
      have hred : compact [a, b] =
          [{ start := b.start, count := (a.count + b.count) % 65536 }] := by
        show (match a.mergeRange b with | some x => [x] | none => [a, b]) = _
        rw [hm]
      rw [hred, h1, hsum, hkmod]
  · cases hs : (a :: b :: c :: t).mergeSort (fun x y => decide (x.sortable ≤ y.sortable)) with
    | nil =>
      exfalso
      have hlen : ((a :: b :: c :: t).mergeSort
          (fun x y => decide (x.sortable ≤ y.sortable))).length =
          (a :: b :: c :: t).length := List.length_mergeSort _
      rw [hs] at hlen
      simp at hlen
    | cons s tt =>
      have hred : compact (a :: b :: c :: t) = sweep s tt := by
        show (match (a :: b :: c :: t).mergeSort (fun x y => decide (x.sortable ≤ y.sortable))
            with
          | [] => ([] : List Range)
          | s :: tt => sweep s tt) = sweep s tt
        rw [hs]
      have hperm : (s :: tt).Perm (a :: b :: c :: t) := by
        rw [← hs]
        exact List.mergeSort_perm _ _
      have hOk2 : RangesOk (s :: tt) := by
        refine ⟨fun r hr => hOk.1 r (hperm.mem_iff.mp hr), ?_⟩
        exact (hperm.pairwise_iff fun h => h.symm).mpr hOk.2
      have hsetP : listSet (s :: tt) = Finset.Ico 0 k := by
        rw [← hIco]
        exact listSet_perm hperm
      have hsorted : (s :: tt).Pairwise fun x y => decide (x.sortable ≤ y.sortable) = true := by
        rw [← hs]
        refine List.sorted_mergeSort ?_ ?_ _
        · intro x y z hxy hyz
          simp only [decide_eq_true_eq] at *
          omega
        · intro x y
          simp only [Bool.or_eq_true, decide_eq_true_eq]
          omega
      have hsortable : (s :: tt).Pairwise fun x y => x.sortable ≤ y.sortable :=
        hsorted.imp fun h => by simpa using h
      have hcnt : ∀ r ∈ s :: tt, r.count < 65536 := by
        intro r hr
        have hle := count_le_card hr
        rw [hsetP, Nat.card_Ico] at hle
        omega
      have hstartlt : (s :: tt).Pairwise fun x y => x.start < y.start := by
        refine (hsortable.and hOk2.2).imp_of_mem ?_
        intro x y hx hy hxy
        obtain ⟨hle, hdis⟩ := hxy
        have hx1 : 1 ≤ x.count := hOk2.1 x hx
        have hy1 : 1 ≤ y.count := hOk2.1 y hy
        have hxc := hcnt x hx
        have hyc := hcnt y hy
        simp only [Range.sortable] at hle
        rcases Nat.lt_or_ge x.start y.start with h | h
        · exact h
        · exfalso
          have heq : x.start = y.start := by omega
          have hmx : x.start ∈ x.toFinset := by
            simp only [Range.toFinset, Finset.mem_Ico]
            omega
          have hmy : x.start ∈ y.toFinset := by
            simp only [Range.toFinset, Finset.mem_Ico]
            omega
          exact (Finset.disjoint_left.mp hdis hmx) hmy
      rw [hred]
      have hfinal := sweep_tiling tt s 0 k (hOk2.1 s (by simp))
        (fun r hr => hOk2.1 r (by simp [hr])) hOk2.2 hstartlt (by rw [hsetP]) (by omega)
      rw [hfinal]
      simp

/-- C5 amended: for every `k` with `1 ≤ k ≤ 65535` and every permutation of the
indices `{0, ..., k-1}`, returning them one by one to an empty classic free
list and compacting leaves exactly one `Range {start 0, count k}`, the counter
equals `k`, and `needsToProvide` holds iff `k` exceeds the low watermark (so for
the spec's `count = 4, low_watermark = 1` instance it is true).  At `k = 65536`
the claim fails because the 16-bit `count` field wraps, see
`coalesce_wraps_at_65536`. -/
theorem coalesce_perm_single_range (k : Nat) (w : Int) (p : List Nat)
    (hk1 : 1 ≤ k) (hk2 : k ≤ 65535) (hp : p.Perm (List.range k)) :
    (poolCompact (p.foldl poolReturnIndex
      { toProvide := [], toProvideCount := 0, lowWatermark := w })).toProvide =
      [{ start := 0, count := k }] ∧
    (poolCompact (p.foldl poolReturnIndex
      { toProvide := [], toProvideCount := 0, lowWatermark := w })).toProvideCount =
      (k : Int) ∧
    (poolNeedsToProvide (poolCompact (p.foldl poolReturnIndex
      { toProvide := [], toProvideCount := 0, lowWatermark := w })) = true ↔
      w < (k : Int)) := by
  have hfold : ∀ (q : List Nat) (l : List Range) (cnt wm : Int),
      q.foldl poolReturnIndex { toProvide := l, toProvideCount := cnt, lowWatermark := wm } =
      { toProvide := q.foldl returnIndexList l, toProvideCount := cnt + q.length,
        lowWatermark := wm } := by
    intro q
    induction q with
    | nil =>
      intro l cnt wm
      simp
    | cons x q2 ih =>
      intro l cnt wm
      rw [List.foldl_cons, List.foldl_cons]
      show q2.foldl poolReturnIndex
          { toProvide := returnIndexList l x, toProvideCount := cnt + 1, lowWatermark := wm } =
        _
      rw [ih]
      congr 1
      simp only [List.length_cons]
      push_cast
      ring
  rw [hfold]
  have hnodup : p.Nodup := hp.nodup_iff.mpr (List.nodup_range k)
  have hlen : p.length = k := by rw [hp.length_eq, List.length_range]
  obtain ⟨hOkL, hsetL⟩ := fold_returnIndex_inv p [] ⟨by simp, by simp⟩
    (by intro i _; simp [listSet]) hnodup (by simp [listSet]; omega)
  have hsetL2 : listSet (p.foldl returnIndexList []) = Finset.range k := by
    rw [hsetL]
    have hempty : listSet ([] : List Range) = ∅ := rfl
    rw [hempty]
    ext x
    simp only [Finset.mem_union, Finset.not_mem_empty, false_or, List.mem_toFinset,
      Finset.mem_range]
    rw [hp.mem_iff]
    exact List.mem_range
  have hcompact := compact_eq hOkL hsetL2 hk1 hk2
  refine ⟨?_, ?_, ?_⟩
  · show compact (p.foldl returnIndexList []) = _
    exact hcompact
  · show (0 : Int) + (p.length : Int) = (k : Int)
    rw [hlen]
    ring
  · show (decide (w < (0 : Int) + (p.length : Int)) = true) ↔ w < (k : Int)
    rw [hlen]
    simp

/-- Helper for the `k = 65536` counterexample: returning `0, 1, ..., m-1` in
order to an empty free list leaves the single back range `{0, m mod 2^16}` (the
`uint16_t` count wraps at 65536). -/
theorem ordered_fold_formula : ∀ m : Nat, 1 ≤ m → m ≤ 65536 →
    (List.range m).foldl returnIndexList [] =
      [{ start := 0, count := m % 65536 }] := by
  intro m
  induction m with
  | zero => omega
  | succ n ih =>
    intro _ h2
    rw [List.range_succ, List.foldl_append, List.foldl_cons, List.foldl_nil]
    rcases Nat.eq_zero_or_pos n with hz | hpos
    · subst hz
      decide
    · rw [ih hpos (by omega)]
      have hn : n % 65536 = n := Nat.mod_eq_of_lt (by omega)
      rw [hn]
      show (match Range.mergeIdx { start := 0, count := n } n with
        | some b2 => [b2]
        | none => [{ start := 0, count := n }, { start := n, count := 1 }]) = _
      unfold Range.mergeIdx
      have hc1 : ¬ (n + 1 = ({ start := 0, count := n } : Range).start) := by
        show ¬ (n + 1 = 0)
        omega
      have hc2 : n = ({ start := 0, count := n } : Range).start +
          ({ start := 0, count := n } : Range).count := by
        show n = 0 + n
        omega
      rw [if_neg hc1, if_pos hc2]

/-- C5 counterexample to the claim as stated at `k = 65536` (the identity
permutation of `{0, ..., 65535}`, all valid `uint16_t` indices): after returning
all 65536 indices the back range's 16-bit count has wrapped to 0, so `compact`
leaves `[{start 0, count 0}]`, not one `Range {start 0, count 65536}`. -/
theorem coalesce_wraps_at_65536 :
    compact ((List.range 65536).foldl returnIndexList []) = [{ start := 0, count := 0 }] ∧
    ({ start := 0, count := 0 } : Range) ≠ { start := 0, count := 65536 } := by
  refine ⟨?_, by decide⟩
  rw [ordered_fold_formula 65536 (by omega) (by omega)]
  rfl

/-- Witness for `coalesce_perm_single_range`: the spec's concrete scenario
`count = 4, low_watermark = 1`, returning `[2, 0, 3, 1]` then compacting. -/
theorem coalesce_perm_single_range_witness :
    (poolCompact ([2, 0, 3, 1].foldl poolReturnIndex
      { toProvide := [], toProvideCount := 0, lowWatermark := 1 })).toProvide =
      [{ start := 0, count := 4 }] ∧
    (poolCompact ([2, 0, 3, 1].foldl poolReturnIndex
      { toProvide := [], toProvideCount := 0, lowWatermark := 1 })).toProvideCount = 4 ∧
    poolNeedsToProvide (poolCompact ([2, 0, 3, 1].foldl poolReturnIndex
      { toProvide := [], toProvideCount := 0, lowWatermark := 1 })) = true := by
  obtain ⟨h1, h2, h3⟩ :=
    coalesce_perm_single_range 4 1 [2, 0, 3, 1] (by decide) (by decide) (by decide)
  exact ⟨h1, h2, h3.mpr (by decide)⟩

end Netbench
